import Mathlib

/-!
Verification of the mylib interest-rate curve core (rate algebra, converters,
interpolators, curve interpolator composition, curve variants) against its
natural-language specification.  Python floating-point arithmetic is embedded
over the reals; machine behaviour at singular points (division by zero) is
modelled by a small explicit IEEE-style value type where a claim is about it.
-/

/-- Compounding methods (mylib.interest.rates.Compound, an IntEnum). -/
inductive Compound
  | continuous
  | simple
  | annual
  | semiannual
  | quarterly
  | monthly
deriving DecidableEq

/-- Numeric value of the Compound enum member (CONTINUOUS = -1, SIMPLE = 0,
periodic members carry their periods-per-year count). Only the periodic
values are ever used arithmetically. -/
def Compound.m : Compound → ℝ
  | .continuous => -1
  | .simple => 0
  | .annual => 1
  | .semiannual => 2
  | .quarterly => 4
  | .monthly => 12

/-- mylib.interest.rates.implied_rate: implied zero rate from time t, discount
factor df and compounding comp (elementwise on the scalar case). -/
noncomputable def rates.implied_rate (t df : ℝ) (comp : Compound) : ℝ :=
  match comp with
  | .continuous => -Real.log df / t
  | .simple => (1.0 / df - 1) / t
  | c => (df ^ (-1.0 / (t * c.m)) - 1) * c.m

/-- mylib.interest.rates.capitalization. -/
noncomputable def rates.capitalization (t r : ℝ) (comp : Compound) : ℝ :=
  match comp with
  | .continuous => Real.exp (r * t)
  | .simple => 1.0 + r * t
  | c => (1.0 + r / c.m) ^ (t * c.m)

/-- mylib.interest.rates.discount_factor. -/
noncomputable def rates.discount_factor (t r : ℝ) (comp : Compound) : ℝ :=
  1.0 / rates.capitalization t r comp

lemma Compound.m_pos : ∀ c : Compound, c ≠ .continuous → c ≠ .simple → 0 < c.m := by
  intro c h1 h2
  cases c
  · exact absurd rfl h1
  · exact absurd rfl h2
  all_goals norm_num [Compound.m]

/-- Shared helper: the continuous-compounding rate/discount round trip. -/
lemma discount_implied_continuous (t df : ℝ) (ht : t ≠ 0) (hdf : 0 < df) :
    rates.discount_factor t (rates.implied_rate t df .continuous) .continuous = df := by
  simp only [rates.discount_factor, rates.capitalization, rates.implied_rate]
  rw [div_mul_cancel₀ _ ht, Real.exp_neg, Real.exp_log hdf]
  norm_num

/-- Shared helper: the simple-compounding rate/discount round trip. -/
lemma discount_implied_simple (t df : ℝ) (ht : t ≠ 0) (hdf : df ≠ 0) :
    rates.discount_factor t (rates.implied_rate t df .simple) .simple = df := by
  simp only [rates.discount_factor, rates.capitalization, rates.implied_rate]
  rw [div_mul_cancel₀ _ ht]
  have h1 : (1.0 : ℝ) + (1.0 / df - 1) = 1 / df := by ring
  rw [h1]
  field_simp
  norm_num

/-- Shared helper: the periodic rate/discount round trip, for any positive
period count m. -/
lemma discount_implied_periodic (t df m : ℝ) (ht : t ≠ 0) (hdf : 0 < df)
    (hm : 0 < m) :
    1.0 / ((1.0 + ((df ^ (-1.0 / (t * m)) - 1) * m) / m) ^ (t * m)) = df := by
  have htm : t * m ≠ 0 := mul_ne_zero ht (ne_of_gt hm)
  rw [mul_div_cancel_right₀ _ (ne_of_gt hm)]
  have h1 : (1.0 + (df ^ (-1.0 / (t * m)) - 1)) = df ^ (-1.0 / (t * m)) := by ring
  rw [h1, ← Real.rpow_mul (le_of_lt hdf), div_mul_cancel₀ _ htm]
  rw [show ((-1.0 : ℝ)) = -(1 : ℝ) by norm_num, Real.rpow_neg_one]
  field_simp
  norm_num

/-- C5: For every t > 0, every discount factor df in (0, 1], and every
compounding convention, discount_factor(t, implied_rate(t, df, c), c) = df:
implied_rate is the inverse of discount_factor under each convention (the
identity holds exactly over the reals, hence within any tolerance). -/
theorem rate_discount_inverse_law (t df : ℝ) (c : Compound)
    (ht : 0 < t) (hdf0 : 0 < df) (hdf1 : df ≤ 1) :
    rates.discount_factor t (rates.implied_rate t df c) c = df := by
  have ht' : t ≠ 0 := ne_of_gt ht
  cases c
  · exact discount_implied_continuous t df ht' hdf0
  · exact discount_implied_simple t df ht' (ne_of_gt hdf0)
  all_goals
    simp only [rates.discount_factor, rates.capitalization, rates.implied_rate]
    exact discount_implied_periodic t df _ ht' hdf0 (by norm_num [Compound.m])

/-- Witness for C5 at t = 2, df = 1/2, quarterly compounding. -/
theorem rate_discount_inverse_law_witness :
    (0 : ℝ) < 2 ∧ (0 : ℝ) < 1/2 ∧ (1/2 : ℝ) ≤ 1 ∧
      rates.discount_factor 2 (rates.implied_rate 2 (1/2) .quarterly) .quarterly = 1/2 :=
  ⟨by norm_num, by norm_num, by norm_num,
    rate_discount_inverse_law 2 (1/2) .quarterly (by norm_num) (by norm_num) (by norm_num)⟩

/-- mylib.interest.convert.ConversionType enumerator. -/
inductive ConversionType
  | identity
  | logarithmic
  | zero_rates
  | inversion
  | rate_time
deriving DecidableEq

/-- A converter is a pair of maps between discount-factor space and
interpolation space (the classmethod pair convert/revert of the Converter
classes in mylib.interest.convert). -/
structure Converter where
  convert : ℝ → ℝ → ℝ
  revert : ℝ → ℝ → ℝ

/-- mylib.interest.convert.IdentityConverter. -/
def IdentityConverter : Converter :=
  ⟨fun _ x => x, fun _ y => y⟩

/-- mylib.interest.convert.LogConverter. -/
noncomputable def LogConverter : Converter :=
  ⟨fun _ x => Real.log x, fun _ y => Real.exp y⟩

/-- mylib.interest.convert.ZeroRatesConverter (implied_rate/discount_factor at
their default continuous compounding). -/
noncomputable def ZeroRatesConverter : Converter :=
  ⟨fun t x => rates.implied_rate t x .continuous,
   fun t y => rates.discount_factor t y .continuous⟩

/-- mylib.interest.convert.InversionConverter (revert delegates to convert). -/
noncomputable def InversionConverter : Converter :=
  ⟨fun _ x => 1.0 / x, fun _ y => 1.0 / y⟩

/-- mylib.interest.convert.RateTimeConverter, defined in the source by negating
LogConverter. -/
noncomputable def RateTimeConverter : Converter :=
  ⟨fun t x => -(LogConverter.convert t x), fun t y => LogConverter.revert t (-y)⟩

/-- mylib.interest.convert.ConverterFactory.get lookup table. -/
noncomputable def ConverterFactory.get : ConversionType → Converter
  | .identity => IdentityConverter
  | .logarithmic => LogConverter
  | .zero_rates => ZeroRatesConverter
  | .inversion => InversionConverter
  | .rate_time => RateTimeConverter

/-- Valid domain of a converter's forward map as stated by the claim: x > 0
wherever a logarithm or a reciprocal of x is taken, everything for the
identity. -/
def ConversionType.validDomain : ConversionType → ℝ → Prop
  | .identity => fun _ => True
  | _ => fun x => 0 < x

/-- Shared helper: the zero-rates converter round trip (also the shape of the
final two steps of the curve interpolator at a knot). -/
lemma zero_rates_roundtrip (t x : ℝ) (ht : t ≠ 0) (hx : 0 < x) :
    rates.discount_factor t (rates.implied_rate t x .continuous) .continuous = x :=
  discount_implied_continuous t x ht hx

/-- C6: for each of the five converter kinds and every t in (0, 30], every x
in the converter's valid domain satisfies revert(t, convert(t, x)) = x
(exactly, over the reals). -/
theorem converter_round_trip (k : ConversionType) (t x : ℝ)
    (ht0 : 0 < t) (ht30 : t ≤ 30) (hx : k.validDomain x) :
    (ConverterFactory.get k).revert t ((ConverterFactory.get k).convert t x) = x := by
  cases k
  · rfl
  · exact Real.exp_log hx
  · exact zero_rates_roundtrip t x (ne_of_gt ht0) hx
  · show 1.0 / (1.0 / x) = x
    rw [show (1.0 : ℝ) = 1 from by norm_num, one_div_one_div]
  · show Real.exp (- - Real.log x) = x
    rw [neg_neg, Real.exp_log hx]

/-- Witness for C6 with the logarithmic converter at t = 1, x = 2. -/
theorem converter_round_trip_witness :
    (0 : ℝ) < 1 ∧ (1 : ℝ) ≤ 30 ∧ ConversionType.validDomain .logarithmic 2 ∧
      (ConverterFactory.get .logarithmic).revert 1
        ((ConverterFactory.get .logarithmic).convert 1 2) = 2 :=
  ⟨by norm_num, by norm_num, by norm_num [ConversionType.validDomain],
    converter_round_trip .logarithmic 1 2 (by norm_num) (by norm_num)
      (by norm_num [ConversionType.validDomain])⟩

/-- C8: the rate-time converter is extensionally a negated logarithmic
converter: convert(t, x) = -LogConverter.convert(t, x) = -ln x for x > 0, and
revert(t, y) = LogConverter.revert(t, -y) = exp(-y). -/
theorem rate_time_is_negated_log (t x y : ℝ) (hx : 0 < x) :
    RateTimeConverter.convert t x = -(LogConverter.convert t x) ∧
    RateTimeConverter.convert t x = -Real.log x ∧
    RateTimeConverter.revert t y = LogConverter.revert t (-y) ∧
    RateTimeConverter.revert t y = Real.exp (-y) :=
  ⟨rfl, rfl, rfl, rfl⟩

/-- Witness for C8 at t = 1, x = 2, y = 3. -/
theorem rate_time_is_negated_log_witness :
    (0 : ℝ) < 2 ∧
      (RateTimeConverter.convert 1 2 = -(LogConverter.convert 1 2) ∧
       RateTimeConverter.convert 1 2 = -Real.log 2 ∧
       RateTimeConverter.revert 1 3 = LogConverter.revert 1 (-3) ∧
       RateTimeConverter.revert 1 3 = Real.exp (-3)) :=
  ⟨by norm_num, rate_time_is_negated_log 1 2 3 (by norm_num)⟩

/-- Modelled from the spec: numpy.interp, the array-interpolation routine that
mylib.math.interp.LinearInterpolator delegates to (it is library code outside
this repository).  Per spec section 4.3 it is piecewise-linear interpolation
through the samples, returning the nearest boundary sample's value outside the
domain.  The samples are given as (x, y) pairs with strictly increasing x. -/
noncomputable def npInterp (q : ℝ) : List (ℝ × ℝ) → ℝ
  | [] => 0
  | [(_, y)] => y
  | (x1, y1) :: (x2, y2) :: rest =>
      if q ≤ x1 then y1
      else if q ≤ x2 then y1 + (q - x1) * (y2 - y1) / (x2 - x1)
      else npInterp q ((x2, y2) :: rest)

/-- One fitted cubic segment: left knot a, right knot b, and the four
polynomial coefficients evaluated as th0 + th1 dx + th2 dx^2 + th3 dx^3 at
dx = q - a. -/
structure Seg where
  a : ℝ
  b : ℝ
  th0 : ℝ
  th1 : ℝ
  th2 : ℝ
  th3 : ℝ

/-- Evaluate one segment's cubic at offset dx from its left knot. -/
def Seg.poly (s : Seg) (dx : ℝ) : ℝ :=
  s.th0 + s.th1 * dx + s.th2 * dx ^ 2 + s.th3 * dx ^ 3

/-- Piecewise-cubic evaluation: use the first segment whose right knot is ≥ q
(so a query equal to an interior knot evaluates the segment ending there), and
clamp queries beyond the last segment to the last segment.  This is the
evaluation contract of spec section 4.3 for piecewise-cubic splines. -/
noncomputable def cubicEval (q : ℝ) : List Seg → ℝ
  | [] => 0
  | [s] => s.poly (q - s.a)
  | s :: s2 :: rest => if q ≤ s.b then s.poly (q - s.a) else cubicEval q (s2 :: rest)

/-- Segment coefficients of an interpolating cubic spline from knots xs,
values ys and curvature parameters cs: on segment i the coefficients are
a_i = y_i, b_i = (y_{i+1}-y_i)/h - h (2 c_i + c_{i+1})/3, c_i, and
d_i = (c_{i+1}-c_i)/(3 h) with h the knot spacing.  Any parameter choice
makes the segments interpolate the knots; the natural spline is the choice
with zero boundary curvature. -/
noncomputable def mkSegs : List ℝ → List ℝ → List ℝ → List Seg
  | x1 :: x2 :: xs, y1 :: y2 :: ys, c1 :: c2 :: cs =>
      ⟨x1, x2, y1, (y2 - y1) / (x2 - x1) - (x2 - x1) * (2 * c1 + c2) / 3, c1,
        (c2 - c1) / (3 * (x2 - x1))⟩ ::
        mkSegs (x2 :: xs) (y2 :: ys) (c2 :: cs)
  | _, _, _ => []

/-- Forward sweep of the tridiagonal (Thomas) solve, carrying the previous
modified coefficients. -/
noncomputable def thomasFwd : List (ℝ × ℝ × ℝ × ℝ) → ℝ → ℝ → List (ℝ × ℝ)
  | [], _, _ => []
  | (a, b, c, d) :: rows, cp, dp =>
      let den := b - a * cp
      let cp2 := c / den
      let dp2 := (d - a * dp) / den
      (cp2, dp2) :: thomasFwd rows cp2 dp2

/-- Back substitution of the Thomas solve. -/
noncomputable def thomasBack (fwd : List (ℝ × ℝ)) : List ℝ :=
  fwd.reverse.foldl (fun acc p => (p.2 - p.1 * acc.headD 0) :: acc) []

/-- Interior rows of the natural-spline tridiagonal system built from
consecutive knot triples. -/
noncomputable def splineRows : List ℝ → List ℝ → List (ℝ × ℝ × ℝ × ℝ)
  | x1 :: x2 :: x3 :: xs, y1 :: y2 :: y3 :: ys =>
      let h1 := x2 - x1
      let h2 := x3 - x2
      (h1, 2 * (h1 + h2), h2, 3 * ((y3 - y2) / h2 - (y2 - y1) / h1)) ::
        splineRows (x2 :: x3 :: xs) (y2 :: y3 :: ys)
  | _, _ => []

/-- Pad or truncate a list to exactly n entries (zero padding). -/
def padTo (n : ℕ) (l : List ℝ) : List ℝ :=
  (l ++ List.replicate n 0).take n

lemma padTo_length (n : ℕ) (l : List ℝ) : (padTo n l).length = n := by
  simp [padTo]

/-- Curvature parameters of the natural cubic spline: zero at both boundary
knots, interior values from the tridiagonal solve (padded to the knot count,
which the solve already has for well-formed inputs). -/
noncomputable def naturalC (xs ys : List ℝ) : List ℝ :=
  padTo xs.length ((0 : ℝ) :: thomasBack (thomasFwd (splineRows xs ys) 0 0) ++ [(0 : ℝ)])

/-- Modelled from the spec: scipy.interpolate.splrep/splev with s = 0, the
fitting and evaluation routines that mylib.math.interp.CubicSplineInterpolator
delegates to (library code outside this repository).  Per spec section 4.3 the
fit is the natural interpolating cubic spline through all samples, exact at
the knots with zero-curvature boundary conditions, evaluated piecewise per
segment. -/
noncomputable def splev (xs ys : List ℝ) (q : ℝ) : ℝ :=
  cubicEval q (mkSegs xs ys (naturalC xs ys))

/-- mylib.math.interp.InterpolationType enumerator. -/
inductive InterpolationType
  | linear
  | cubic_spline
deriving DecidableEq

/-- mylib.math.interp.Interpolator: fitted sample arrays x, y plus the
evaluation map produced by the fit. -/
structure Interpolator where
  x : List ℝ
  y : List ℝ
  eval : ℝ → ℝ

/-- mylib.math.interp.LinearInterpolator: evaluation delegates to np.interp
over the stored samples. -/
noncomputable def LinearInterpolator (x y : List ℝ) : Interpolator :=
  ⟨x, y, fun q => npInterp q (x.zip y)⟩

/-- mylib.math.interp.CubicSplineInterpolator: evaluation delegates to
splev of the splrep fit of the stored samples. -/
noncomputable def CubicSplineInterpolator (x y : List ℝ) : Interpolator :=
  ⟨x, y, fun q => splev x y q⟩

/-- mylib.math.interp.InterpolatorFactory.get lookup table. -/
noncomputable def InterpolatorFactory.get (x y : List ℝ) :
    InterpolationType → Interpolator
  | .linear => LinearInterpolator x y
  | .cubic_spline => CubicSplineInterpolator x y

/-- np.min over a nonempty array (defaulting to 0 on the empty list, which
the curve constructors rule out). -/
def listMin : List ℝ → ℝ
  | [] => 0
  | h :: t => t.foldl min h

/-- np.max over a nonempty array (defaulting to 0 on the empty list). -/
def listMax : List ℝ → ℝ
  | [] => 0
  | h :: t => t.foldl max h

/-- mylib.interest.interpolate.InterestRateCurveInterpolator: one converter
plus one interpolator fitted on the converted knot values. -/
structure InterestRateCurveInterpolator where
  converter : Converter
  interp : Interpolator

/-- InterestRateCurveInterpolator.__init__: look up the converter, convert the
discount factors elementwise, and fit the interpolator on (t, converted). -/
noncomputable def InterestRateCurveInterpolator.make
    (t df : List ℝ) (interpType : InterpolationType)
    (conversionType : ConversionType) : InterestRateCurveInterpolator :=
  let conv := ConverterFactory.get conversionType
  ⟨conv, InterpolatorFactory.get t ((t.zip df).map fun p => conv.convert p.1 p.2) interpType⟩

/-- InterestRateCurveInterpolator.__call__: clamp the query into the fitted
range, interpolate, revert to a discount factor, take the continuously
compounded rate at the clamped time, and rediscount at the original time. -/
noncomputable def InterestRateCurveInterpolator.call
    (c : InterestRateCurveInterpolator) (t : ℝ) : ℝ :=
  let min_t := listMin c.interp.x
  let max_t := listMax c.interp.x
  let t_int := min (max t min_t) max_t
  let y := c.interp.eval t_int
  let df := c.converter.revert t_int y
  let rate := rates.implied_rate t_int df .continuous
  rates.discount_factor t rate .continuous

/-- mylib.interest.interpolate.CurveInterpolationType (curve presets).
RAW_INTERPOLATION and LOG_DISCOUNT_INTERPOLATION are the same enum value in
the source; it is named raw here. -/
inductive CurveInterpolationType
  | raw
  | linear_rates
  | linear_discount
  | cubic_spline_rates
deriving DecidableEq

/-- mylib.interest.interpolate.CurveInterpolatorFactory.get: preset-indexed
construction through the named subclasses (LogDiscountCurveInterpolator,
LinearRatesCurveInterpolator, LinearDiscountCurveInterpolator,
CubicSplineRatesCurveInterpolator). -/
noncomputable def CurveInterpolatorFactory.get (t df : List ℝ) :
    CurveInterpolationType → InterestRateCurveInterpolator
  | .raw => InterestRateCurveInterpolator.make t df .linear .logarithmic
  | .linear_rates => InterestRateCurveInterpolator.make t df .linear .zero_rates
  | .linear_discount => InterestRateCurveInterpolator.make t df .linear .identity
  | .cubic_spline_rates => InterestRateCurveInterpolator.make t df .cubic_spline .zero_rates

/-- The (InterpolationKind, ConversionKind) pair of each CurvePreset as the
spec's data-model section lists them. -/
def CurvePreset.components : CurveInterpolationType → InterpolationType × ConversionType
  | .raw => (.linear, .logarithmic)
  | .linear_rates => (.linear, .zero_rates)
  | .linear_discount => (.linear, .identity)
  | .cubic_spline_rates => (.cubic_spline, .zero_rates)

/-- The five-step reference query algorithm as worded by spec section 4.4:
clamp q into [min t, max t], evaluate the preset's fitted interpolator at the
clamped point, revert through the preset's converter to a discount factor,
take the continuously compounded implied rate at the clamped point, and
rediscount continuously at the original unclamped q. -/
noncomputable def specFiveStepQuery (t df : List ℝ) (preset : CurveInterpolationType)
    (q : ℝ) : ℝ :=
  let pair := CurvePreset.components preset
  let conv := ConverterFactory.get pair.2
  let fitted := InterpolatorFactory.get t ((t.zip df).map fun p => conv.convert p.1 p.2) pair.1
  let q_c := min (max q (listMin t)) (listMax t)
  let y := fitted.eval q_c
  let df_c := conv.revert q_c y
  let rate := rates.implied_rate q_c df_c .continuous
  rates.discount_factor q rate .continuous

/-- C1: for every knot set, every preset and every scalar query q, the curve
interpolator's call agrees with the spec's five-step reference algorithm
(clamp, interpolate, revert, implied continuous rate at the clamped time,
rediscount at the original unclamped time). -/
theorem curve_call_is_five_step_algorithm (t df : List ℝ)
    (preset : CurveInterpolationType) (q : ℝ) :
    (CurveInterpolatorFactory.get t df preset).call q = specFiveStepQuery t df preset q := by
  cases preset <;> rfl

lemma foldl_min_le (t : List ℝ) : ∀ h x : ℝ, x ∈ h :: t → List.foldl min h t ≤ x := by
  induction t with
  | nil =>
    intro h x hx
    rw [List.mem_singleton] at hx
    simp [hx]
  | cons a t ih =>
    intro h x hx
    simp only [List.foldl_cons]
    have hmin : List.foldl min (min h a) t ≤ min h a :=
      ih (min h a) (min h a) (List.mem_cons_self _ _)
    rcases List.mem_cons.mp hx with rfl | hx'
    · exact le_trans hmin (min_le_left _ _)
    rcases List.mem_cons.mp hx' with rfl | hx''
    · exact le_trans hmin (min_le_right _ _)
    · exact ih (min h a) x (List.mem_cons_of_mem _ hx'')

lemma foldl_max_ge (t : List ℝ) : ∀ h x : ℝ, x ∈ h :: t → x ≤ List.foldl max h t := by
  induction t with
  | nil =>
    intro h x hx
    rw [List.mem_singleton] at hx
    simp [hx]
  | cons a t ih =>
    intro h x hx
    simp only [List.foldl_cons]
    have hmax : max h a ≤ List.foldl max (max h a) t :=
      ih (max h a) (max h a) (List.mem_cons_self _ _)
    rcases List.mem_cons.mp hx with rfl | hx'
    · exact le_trans (le_max_left _ _) hmax
    rcases List.mem_cons.mp hx' with rfl | hx''
    · exact le_trans (le_max_right _ _) hmax
    · exact ih (max h a) x (List.mem_cons_of_mem _ hx'')

lemma listMin_le {l : List ℝ} {x : ℝ} (hx : x ∈ l) : listMin l ≤ x := by
  cases l with
  | nil => simp at hx
  | cons h t => exact foldl_min_le t h x hx

lemma le_listMax {l : List ℝ} {x : ℝ} (hx : x ∈ l) : x ≤ listMax l := by
  cases l with
  | nil => simp at hx
  | cons h t => exact foldl_max_ge t h x hx

/-- The clamp of the curve interpolator fixes any point of the knot list. -/
lemma clamp_of_mem {l : List ℝ} {t : ℝ} (hmem : t ∈ l) :
    min (max t (listMin l)) (listMax l) = t := by
  rw [max_eq_left (listMin_le hmem), min_eq_left (le_listMax hmem)]

lemma chain_lt_head {x : ℝ} {l : List ℝ} (hs : (x :: l).Chain' (· < ·)) :
    ∀ y ∈ l, x < y := by
  have hp := List.chain'_iff_pairwise.mp hs
  exact fun y hy => (List.pairwise_cons.mp hp).1 y hy

/-- np.interp reproduces every sample exactly (strictly increasing sample
abscissae). -/
lemma npInterp_knot : ∀ l : List (ℝ × ℝ), (l.map Prod.fst).Chain' (· < ·) →
    ∀ p ∈ l, npInterp p.1 l = p.2 := by
  intro l
  induction l with
  | nil =>
    intro _ p hp
    simp at hp
  | cons hd tl ih =>
    intro hs p hp
    cases tl with
    | nil =>
      rw [List.mem_singleton] at hp
      subst hp
      obtain ⟨x, y⟩ := p
      rfl
    | cons hd2 tl2 =>
      obtain ⟨x1, y1⟩ := hd
      obtain ⟨x2, y2⟩ := hd2
      simp only [List.map_cons] at hs
      have hx12 : x1 < x2 := (List.chain'_cons.mp hs).1
      rcases List.mem_cons.mp hp with rfl | hp'
      · simp [npInterp]
      · have hx1p : x1 < p.1 := by
          refine chain_lt_head hs p.1 ?_
          rcases List.mem_cons.mp hp' with rfl | hp''
          · exact List.mem_cons_self _ _
          · exact List.mem_cons_of_mem _ (List.mem_map_of_mem Prod.fst hp'')
        have h1 : ¬ (p.1 ≤ x1) := not_le.mpr hx1p
        rcases List.mem_cons.mp hp' with rfl | hp''
        · have hne : x2 - x1 ≠ 0 := sub_ne_zero.mpr (ne_of_gt hx12)
          have h1' : ¬ (x2 ≤ x1) := not_le.mpr hx12
          show npInterp x2 ((x1, y1) :: (x2, y2) :: tl2) = y2
          simp only [npInterp]
          rw [if_neg h1', if_pos le_rfl]
          field_simp
        · have hx2p : x2 < p.1 :=
            chain_lt_head (List.chain'_cons.mp hs).2 p.1 (List.mem_map_of_mem Prod.fst hp'')
          have h2 : ¬ (p.1 ≤ x2) := not_le.mpr hx2p
          have hstep : npInterp p.1 ((x1, y1) :: (x2, y2) :: tl2)
              = npInterp p.1 ((x2, y2) :: tl2) := by
            simp only [npInterp]
            rw [if_neg h1, if_neg h2]
          rw [hstep]
          exact ih (List.chain'_cons.mp hs).2 p (List.mem_cons_of_mem _ hp'')

lemma seg_poly_left (x1 x2 y1 y2 c1 c2 : ℝ) :
    Seg.poly ⟨x1, x2, y1, (y2 - y1) / (x2 - x1) - (x2 - x1) * (2 * c1 + c2) / 3, c1,
        (c2 - c1) / (3 * (x2 - x1))⟩ (x1 - x1) = y1 := by
  simp [Seg.poly]

lemma seg_poly_right (x1 x2 y1 y2 c1 c2 : ℝ) (hne : x2 - x1 ≠ 0) :
    Seg.poly ⟨x1, x2, y1, (y2 - y1) / (x2 - x1) - (x2 - x1) * (2 * c1 + c2) / 3, c1,
        (c2 - c1) / (3 * (x2 - x1))⟩ (x2 - x1) = y2 := by
  simp only [Seg.poly]
  field_simp
  ring

/-- Piecewise-cubic interpolation through segments built by mkSegs reproduces
every knot exactly, for any curvature parameter list that covers the knots. -/
lemma cubic_knot : ∀ xs ys cs : List ℝ, xs.Chain' (· < ·) →
    xs.length = ys.length → xs.length ≤ cs.length → 2 ≤ xs.length →
    ∀ i, i < xs.length →
      cubicEval (xs.getD i 0) (mkSegs xs ys cs) = ys.getD i 0 := by
  intro xs
  induction xs with
  | nil =>
    intro ys cs _ _ _ h2
    simp at h2
  | cons x1 rest ih =>
    intro ys cs hs hlen hcs h2 i hi
    cases rest with
    | nil => simp at h2
    | cons x2 xs2 =>
      cases ys with
      | nil => simp at hlen
      | cons y1 ys1 =>
        cases ys1 with
        | nil => simp at hlen
        | cons y2 ys2 =>
          cases cs with
          | nil => simp at hcs
          | cons c1 cs1 =>
            cases cs1 with
            | nil => simp at hcs
            | cons c2 cs2 =>
              have hx12 : x1 < x2 := (List.chain'_cons.mp hs).1
              have hne : x2 - x1 ≠ 0 := sub_ne_zero.mpr (ne_of_gt hx12)
              cases xs2 with
              | nil =>
                -- exactly two knots: a single segment, no recursion
                have hseg : mkSegs [x1, x2] (y1 :: y2 :: ys2) (c1 :: c2 :: cs2)
                    = [⟨x1, x2, y1,
                        (y2 - y1) / (x2 - x1) - (x2 - x1) * (2 * c1 + c2) / 3, c1,
                        (c2 - c1) / (3 * (x2 - x1))⟩] := by
                  simp [mkSegs]
                rw [hseg]
                match i, hi with
                | 0, _ => exact seg_poly_left x1 x2 y1 y2 c1 c2
                | 1, _ => exact seg_poly_right x1 x2 y1 y2 c1 c2 hne
                | (k + 2), hik => simp only [List.length_cons, List.length_nil] at hik; omega
              | cons x3 xs3 =>
                cases ys2 with
                | nil => simp at hlen
                | cons y3 ys3 =>
                  cases cs2 with
                  | nil => simp at hcs
                  | cons c3 cs3 =>
                    have hseg : mkSegs (x1 :: x2 :: x3 :: xs3) (y1 :: y2 :: y3 :: ys3)
                        (c1 :: c2 :: c3 :: cs3)
                        = ⟨x1, x2, y1,
                            (y2 - y1) / (x2 - x1) - (x2 - x1) * (2 * c1 + c2) / 3, c1,
                            (c2 - c1) / (3 * (x2 - x1))⟩ ::
                          mkSegs (x2 :: x3 :: xs3) (y2 :: y3 :: ys3) (c2 :: c3 :: cs3) := by
                      simp [mkSegs]
                    have htailne : ∃ s rest2, mkSegs (x2 :: x3 :: xs3) (y2 :: y3 :: ys3)
                        (c2 :: c3 :: cs3) = s :: rest2 := by
                      simp [mkSegs]
                    obtain ⟨s0, rest2, htail⟩ := htailne
                    rw [hseg, htail]
                    match i, hi with
                    | 0, _ =>
                      have hq : ((x1 :: x2 :: x3 :: xs3).getD 0 0) = x1 := rfl
                      rw [hq]
                      have hle : x1 ≤ x2 := le_of_lt hx12
                      show (if x1 ≤ x2 then _ else _) = _
                      rw [if_pos hle]
                      exact seg_poly_left x1 x2 y1 y2 c1 c2
                    | 1, _ =>
                      show (if x2 ≤ x2 then _ else _) = _
                      rw [if_pos le_rfl]
                      exact seg_poly_right x1 x2 y1 y2 c1 c2 hne
                    | (k + 2), hik =>
                      have hq : ((x1 :: x2 :: x3 :: xs3).getD (k + 2) 0)
                          = ((x2 :: x3 :: xs3).getD (k + 1) 0) := rfl
                      have hmem : ((x2 :: x3 :: xs3).getD (k + 1) 0) ∈ x3 :: xs3 := by
                        have hk : k < xs3.length + 1 := by
                          simp only [List.length_cons] at hik
                          omega
                        have heq : ((x2 :: x3 :: xs3).getD (k + 1) 0)
                            = ((x3 :: xs3).getD k 0) := rfl
                        have hlt : k < (x3 :: xs3).length := by simpa using hk
                        rw [heq, List.getD_eq_getElem _ _ hlt]
                        exact List.getElem_mem _
                      have hgt : x2 < ((x2 :: x3 :: xs3).getD (k + 1) 0) :=
                        chain_lt_head (List.Chain'.tail hs) _ hmem
                      rw [hq]
                      show (if ((x2 :: x3 :: xs3).getD (k + 1) 0) ≤ x2 then _ else _) = _
                      rw [if_neg (not_le.mpr hgt), ← htail]
                      have hres := ih (y2 :: y3 :: ys3) (c2 :: c3 :: cs3)
                        (List.Chain'.tail hs)
                        (by simpa using hlen)
                        (by simpa using hcs)
                        (by simp)
                        (k + 1)
                        (by simp only [List.length_cons] at hik ⊢; omega)
                      simpa using hres

/-- All five converter round trips, shared between the converter claim and the
curve pipeline lemmas. -/
lemma converter_roundtrip_aux (k : ConversionType) (t x : ℝ) (ht : t ≠ 0) (hx : 0 < x) :
    (ConverterFactory.get k).revert t ((ConverterFactory.get k).convert t x) = x := by
  cases k
  · rfl
  · exact Real.exp_log hx
  · exact zero_rates_roundtrip t x ht hx
  · show 1.0 / (1.0 / x) = x
    rw [show (1.0 : ℝ) = 1 from by norm_num, one_div_one_div]
  · show Real.exp (- - Real.log x) = x
    rw [neg_neg, Real.exp_log hx]

/-- The elementwise converted knot values, read back at one index. -/
lemma converted_getD (conv : Converter) (ts dfs : List ℝ) (hlen : ts.length = dfs.length)
    (i : ℕ) (hi : i < ts.length) :
    ((ts.zip dfs).map fun p => conv.convert p.1 p.2).getD i 0
      = conv.convert (ts.getD i 0) (dfs.getD i 0) := by
  have hdi : i < dfs.length := hlen ▸ hi
  have hzi : i < (ts.zip dfs).length := by
    simp only [List.length_zip]
    omega
  have hml : i < ((ts.zip dfs).map fun p => conv.convert p.1 p.2).length := by
    simpa using hzi
  rw [List.getD_eq_getElem _ _ hml, List.getElem_map, List.getElem_zip,
    List.getD_eq_getElem _ _ hi, List.getD_eq_getElem _ _ hdi]

/-- Evaluating the fitted interpolator of either kind at a knot returns the
converted knot value. -/
lemma make_eval_at_knot (it : InterpolationType) (conv : Converter) (ts dfs : List ℝ)
    (hs : ts.Chain' (· < ·)) (hlen : ts.length = dfs.length) (h2 : 2 ≤ ts.length)
    (i : ℕ) (hi : i < ts.length) :
    (InterpolatorFactory.get ts ((ts.zip dfs).map fun p => conv.convert p.1 p.2) it).eval
        (ts.getD i 0)
      = conv.convert (ts.getD i 0) (dfs.getD i 0) := by
  have hyslen : ((ts.zip dfs).map fun p => conv.convert p.1 p.2).length = ts.length := by
    simp only [List.length_map, List.length_zip]
    omega
  have hgetD := converted_getD conv ts dfs hlen i hi
  cases it
  · show npInterp (ts.getD i 0) (ts.zip ((ts.zip dfs).map fun p => conv.convert p.1 p.2)) = _
    have hmapfst : (ts.zip ((ts.zip dfs).map fun p => conv.convert p.1 p.2)).map Prod.fst = ts :=
      List.map_fst_zip ts _ (by omega)
    have hzi : i < (ts.zip ((ts.zip dfs).map fun p => conv.convert p.1 p.2)).length := by
      simp only [List.length_zip]
      omega
    have hpair : (ts.zip ((ts.zip dfs).map fun p => conv.convert p.1 p.2))[i]
        = (ts.getD i 0, ((ts.zip dfs).map fun p => conv.convert p.1 p.2).getD i 0) := by
      rw [List.getElem_zip]
      rw [List.getD_eq_getElem _ _ hi, List.getD_eq_getElem _ _ (by omega)]
    have hk := npInterp_knot _ (by rw [hmapfst]; exact hs) _ (List.getElem_mem hzi)
    rw [hpair] at hk
    rw [← hgetD]
    exact hk
  · show cubicEval (ts.getD i 0)
        (mkSegs ts ((ts.zip dfs).map fun p => conv.convert p.1 p.2)
          (naturalC ts ((ts.zip dfs).map fun p => conv.convert p.1 p.2))) = _
    have hcs : ts.length ≤ (naturalC ts ((ts.zip dfs).map fun p => conv.convert p.1 p.2)).length := by
      rw [naturalC, padTo_length]
    rw [cubic_knot ts _ _ hs hyslen.symm hcs h2 i hi, hgetD]

/-- The curve interpolator of any (interpolation, conversion) pair reproduces
every knot discount factor exactly. -/
lemma make_call_at_knot (it : InterpolationType) (ct : ConversionType) (ts dfs : List ℝ)
    (hs : ts.Chain' (· < ·)) (hlen : ts.length = dfs.length) (h2 : 2 ≤ ts.length)
    (hpos : ∀ x ∈ ts, 0 < x) (hdfpos : ∀ d ∈ dfs, 0 < d)
    (i : ℕ) (hi : i < ts.length) :
    (InterestRateCurveInterpolator.make ts dfs it ct).call (ts.getD i 0) = dfs.getD i 0 := by
  have hmem : ts.getD i 0 ∈ ts := by
    rw [List.getD_eq_getElem _ _ hi]
    exact List.getElem_mem hi
  have htpos : 0 < ts.getD i 0 := hpos _ hmem
  have hdi : i < dfs.length := hlen ▸ hi
  have hdmem : dfs.getD i 0 ∈ dfs := by
    rw [List.getD_eq_getElem _ _ hdi]
    exact List.getElem_mem hdi
  have hdpos : 0 < dfs.getD i 0 := hdfpos _ hdmem
  have hxfield : (InterestRateCurveInterpolator.make ts dfs it ct).interp.x = ts := by
    cases it <;> rfl
  have hconv : (InterestRateCurveInterpolator.make ts dfs it ct).converter
      = ConverterFactory.get ct := by
    cases it <;> rfl
  have hevalfield : (InterestRateCurveInterpolator.make ts dfs it ct).interp.eval (ts.getD i 0)
      = (ConverterFactory.get ct).convert (ts.getD i 0) (dfs.getD i 0) := by
    have h := make_eval_at_knot it (ConverterFactory.get ct) ts dfs hs hlen h2 i hi
    cases it <;> exact h
  simp only [InterestRateCurveInterpolator.call, hxfield, hconv, clamp_of_mem hmem, hevalfield]
  rw [converter_roundtrip_aux ct _ _ (ne_of_gt htpos) hdpos]
  exact discount_implied_continuous _ _ (ne_of_gt htpos) hdpos

/-- The knot-set invariant of spec section 3 plus the positivity assumptions
the claims state: at least two knots, matching lengths, strictly increasing
positive maturities, positive discount factors. -/
structure ValidKnots (ts dfs : List ℝ) : Prop where
  len_eq : ts.length = dfs.length
  two_le : 2 ≤ ts.length
  sorted : ts.Chain' (· < ·)
  mat_pos : ∀ x ∈ ts, 0 < x
  df_pos : ∀ d ∈ dfs, 0 < d

/-- C2: for every curve preset and valid knot set, the curve interpolator
reproduces the input discount factors exactly at every knot maturity. -/
theorem curve_interpolator_exact_at_knots (p : CurveInterpolationType)
    (ts dfs : List ℝ) (h : ValidKnots ts dfs) (i : ℕ) (hi : i < ts.length) :
    (CurveInterpolatorFactory.get ts dfs p).call (ts.getD i 0) = dfs.getD i 0 := by
  cases p <;>
    exact make_call_at_knot _ _ ts dfs h.sorted h.len_eq h.two_le h.mat_pos h.df_pos i hi

/-- Witness for C2: the raw preset on knots (1, 2) with discounts
(1/2, 1/4), queried at the first knot. -/
theorem curve_interpolator_exact_at_knots_witness :
    ValidKnots [1, 2] [1/2, 1/4] ∧ (0 : ℕ) < ([1, 2] : List ℝ).length ∧
      (CurveInterpolatorFactory.get [1, 2] [1/2, 1/4] .raw).call
          (([1, 2] : List ℝ).getD 0 0)
        = ([1/2, 1/4] : List ℝ).getD 0 0 := by
  have hv : ValidKnots [1, 2] [1/2, 1/4] := by
    refine ⟨by norm_num, by norm_num, ?_, ?_, ?_⟩
    · norm_num [List.chain'_cons]
    · intro x hx
      rcases List.mem_cons.mp hx with rfl | hx'
      · norm_num
      · rw [List.mem_singleton] at hx'
        rw [hx']
        norm_num
    · intro d hd
      rcases List.mem_cons.mp hd with rfl | hd'
      · norm_num
      · rw [List.mem_singleton] at hd'
        rw [hd']
        norm_num
  exact ⟨hv, by norm_num,
    curve_interpolator_exact_at_knots .raw [1, 2] [1/2, 1/4] hv 0 (by norm_num)⟩

/-- mylib.interest.curve curve variants: FlatCurve (constant rate under a
convention) and DiscountCurve (interpolated over a knot set and preset). -/
inductive Curve
  | flat (rate : ℝ) (comp : Compound)
  | discount (maturity discount : List ℝ) (interp : CurveInterpolationType)

/-- Curve.discount_factor: FlatCurve discounts at the constant rate;
DiscountCurve delegates to its curve interpolator. -/
noncomputable def Curve.discount_factor : Curve → ℝ → ℝ
  | .flat r c, t => rates.discount_factor t r c
  | .discount m d p, t => (CurveInterpolatorFactory.get m d p).call t

/-- InterestRateCurve.zero_rate, derived from discount_factor (its comp
argument defaults to continuous in the source). -/
noncomputable def Curve.zero_rate (c : Curve) (t : ℝ) (comp : Compound) : ℝ :=
  rates.implied_rate t (c.discount_factor t) comp

/-- InterestRateCurve.forward_rate, derived from discount_factor. -/
noncomputable def Curve.forward_rate (c : Curve) (t1 t2 : ℝ) (comp : Compound) : ℝ :=
  rates.implied_rate (t2 - t1) (c.discount_factor t2 / c.discount_factor t1) comp

lemma foldl_max_mem (t : List ℝ) : ∀ h : ℝ, List.foldl max h t ∈ h :: t := by
  induction t with
  | nil =>
    intro h
    simp
  | cons a t ih =>
    intro h
    simp only [List.foldl_cons]
    rcases List.mem_cons.mp (ih (max h a)) with heq | hmem
    · rw [heq]
      rcases max_choice h a with h1 | h1 <;> rw [h1]
      · exact List.mem_cons_self _ _
      · exact List.mem_cons_of_mem _ (List.mem_cons_self _ _)
    · exact List.mem_cons_of_mem _ (List.mem_cons_of_mem _ hmem)

lemma listMax_mem {l : List ℝ} (hne : l ≠ []) : listMax l ∈ l := by
  cases l with
  | nil => exact absurd rfl hne
  | cons h t => exact foldl_max_mem t h

lemma sorted_getD_lt {l : List ℝ} (hs : l.Chain' (· < ·)) {i j : ℕ}
    (hij : i < j) (hj : j < l.length) : l.getD i 0 < l.getD j 0 := by
  have hp := List.chain'_iff_pairwise.mp hs
  have hik : i < l.length := lt_trans hij hj
  have hg := List.pairwise_iff_get.mp hp ⟨i, hik⟩ ⟨j, hj⟩ hij
  rw [List.getD_eq_getElem _ _ hik, List.getD_eq_getElem _ _ hj]
  exact hg

lemma getD_le_last {l : List ℝ} (hs : l.Chain' (· < ·)) {k : ℕ} (hk : k < l.length) :
    l.getD k 0 ≤ l.getD (l.length - 1) 0 := by
  rcases lt_or_eq_of_le (Nat.le_pred_of_lt hk) with hlt | heq
  · exact le_of_lt (sorted_getD_lt hs hlt (by omega))
  · rw [heq, Nat.pred_eq_sub_one]

/-- For a strictly increasing nonempty list, the maximum is the last entry. -/
lemma listMax_eq_last {l : List ℝ} (hs : l.Chain' (· < ·)) (hne : l ≠ []) :
    listMax l = l.getD (l.length - 1) 0 := by
  have hlen : 0 < l.length := List.length_pos.mpr hne
  have hlastlt : l.length - 1 < l.length := by omega
  have hlast : l.getD (l.length - 1) 0 ∈ l := by
    rw [List.getD_eq_getElem _ _ hlastlt]
    exact List.getElem_mem _
  apply le_antisymm
  · obtain ⟨k, hk, hkeq⟩ := List.getElem_of_mem (listMax_mem hne)
    calc listMax l = l.getD k 0 := by rw [List.getD_eq_getElem _ _ hk, hkeq]
    _ ≤ l.getD (l.length - 1) 0 := getD_le_last hs hk
  · exact le_listMax hlast

/-- Continuous implied rate of a continuous discount factor recovers the rate. -/
lemma implied_cont_of_df (t r : ℝ) (ht : t ≠ 0) :
    rates.implied_rate t (rates.discount_factor t r .continuous) .continuous = r := by
  simp only [rates.implied_rate, rates.discount_factor, rates.capitalization]
  rw [show (1.0 : ℝ) = 1 from by norm_num, one_div, Real.log_inv, Real.log_exp, neg_neg]
  exact mul_div_cancel_right₀ r ht

/-- Above (or at) the last knot, the curve interpolator call reduces to
continuous discounting at the last knot's continuously compounded zero rate. -/
lemma make_call_of_ge_max (it : InterpolationType) (ct : ConversionType) (ts dfs : List ℝ)
    (hs : ts.Chain' (· < ·)) (hlen : ts.length = dfs.length) (h2 : 2 ≤ ts.length)
    (hpos : ∀ x ∈ ts, 0 < x) (hdfpos : ∀ d ∈ dfs, 0 < d)
    (t : ℝ) (ht : listMax ts ≤ t) :
    (InterestRateCurveInterpolator.make ts dfs it ct).call t
      = rates.discount_factor t
          (rates.implied_rate (listMax ts) (dfs.getD (dfs.length - 1) 0) .continuous)
          .continuous := by
  have hne : ts ≠ [] := by
    intro hcon
    rw [hcon] at h2
    simp at h2
  have hilast : ts.length - 1 < ts.length := by omega
  have hmemmax : listMax ts ∈ ts := listMax_mem hne
  have hminle : listMin ts ≤ listMax ts := listMin_le hmemmax
  have hclamp : min (max t (listMin ts)) (listMax ts) = listMax ts := by
    rw [max_eq_left (le_trans hminle ht), min_eq_right ht]
  have hxfield : (InterestRateCurveInterpolator.make ts dfs it ct).interp.x = ts := by
    cases it <;> rfl
  have hconv : (InterestRateCurveInterpolator.make ts dfs it ct).converter
      = ConverterFactory.get ct := by
    cases it <;> rfl
  have hmax : listMax ts = ts.getD (ts.length - 1) 0 := listMax_eq_last hs hne
  have htlpos : 0 < ts.getD (ts.length - 1) 0 := by
    refine hpos _ ?_
    rw [List.getD_eq_getElem _ _ hilast]
    exact List.getElem_mem _
  have hdlast : dfs.length - 1 < dfs.length := by omega
  have hdpos : 0 < dfs.getD (dfs.length - 1) 0 := by
    refine hdfpos _ ?_
    rw [List.getD_eq_getElem _ _ hdlast]
    exact List.getElem_mem _
  have hidx : dfs.length - 1 = ts.length - 1 := by omega
  have hevalfield : (InterestRateCurveInterpolator.make ts dfs it ct).interp.eval
        (ts.getD (ts.length - 1) 0)
      = (ConverterFactory.get ct).convert (ts.getD (ts.length - 1) 0)
          (dfs.getD (ts.length - 1) 0) := by
    have h := make_eval_at_knot it (ConverterFactory.get ct) ts dfs hs hlen h2
      (ts.length - 1) hilast
    cases it <;> exact h
  simp only [InterestRateCurveInterpolator.call, hxfield, hconv, hclamp]
  rw [hmax, hevalfield, hidx,
    converter_roundtrip_aux ct _ _ (ne_of_gt htlpos) (by rw [hidx] at hdpos; exact hdpos)]

/-- C3 (amended): beyond the last knot the continuously compounded zero rate
is flat, and the discount factor keeps decaying strictly provided the last
knot's discount factor is below 1 (equivalently, the terminal zero rate is
positive); with a last discount factor of exactly 1 the extrapolated discount
factor stays flat at 1, so the strict decrease needs that extra hypothesis. -/
theorem flat_forward_extrapolation (p : CurveInterpolationType) (ts dfs : List ℝ)
    (h : ValidKnots ts dfs) (t : ℝ) (ht : listMax ts < t) :
    Curve.zero_rate (.discount ts dfs p) t .continuous
        = Curve.zero_rate (.discount ts dfs p) (listMax ts) .continuous
      ∧ (dfs.getD (dfs.length - 1) 0 < 1 →
          Curve.discount_factor (.discount ts dfs p) t
            < Curve.discount_factor (.discount ts dfs p) (listMax ts)) := by
  have hne : ts ≠ [] := by
    have h2 := h.two_le
    intro hc
    rw [hc] at h2
    simp at h2
  have hTmem : listMax ts ∈ ts := listMax_mem hne
  have hTpos : 0 < listMax ts := h.mat_pos _ hTmem
  have htpos : 0 < t := lt_trans hTpos ht
  have hdlast : dfs.length - 1 < dfs.length := by
    have h2 := h.two_le
    have hl := h.len_eq
    omega
  have hDpos : 0 < dfs.getD (dfs.length - 1) 0 := by
    refine h.df_pos _ ?_
    rw [List.getD_eq_getElem _ _ hdlast]
    exact List.getElem_mem _
  have hcallt : Curve.discount_factor (.discount ts dfs p) t
      = rates.discount_factor t
          (rates.implied_rate (listMax ts) (dfs.getD (dfs.length - 1) 0) .continuous)
          .continuous := by
    show (CurveInterpolatorFactory.get ts dfs p).call t = _
    cases p <;>
      exact make_call_of_ge_max _ _ ts dfs h.sorted h.len_eq h.two_le h.mat_pos h.df_pos
        t (le_of_lt ht)
  have hcallT : Curve.discount_factor (.discount ts dfs p) (listMax ts)
      = rates.discount_factor (listMax ts)
          (rates.implied_rate (listMax ts) (dfs.getD (dfs.length - 1) 0) .continuous)
          .continuous := by
    show (CurveInterpolatorFactory.get ts dfs p).call (listMax ts) = _
    cases p <;>
      exact make_call_of_ge_max _ _ ts dfs h.sorted h.len_eq h.two_le h.mat_pos h.df_pos
        (listMax ts) le_rfl
  constructor
  · simp only [Curve.zero_rate]
    rw [hcallt, hcallT, implied_cont_of_df _ _ (ne_of_gt htpos),
      implied_cont_of_df _ _ (ne_of_gt hTpos)]
  · intro hD1
    rw [hcallt, hcallT]
    have hrpos : 0 < rates.implied_rate (listMax ts) (dfs.getD (dfs.length - 1) 0)
        .continuous := by
      simp only [rates.implied_rate]
      exact div_pos (neg_pos.mpr (Real.log_neg hDpos hD1)) hTpos
    simp only [rates.discount_factor, rates.capitalization]
    rw [show (1.0 : ℝ) = 1 from by norm_num]
    exact one_div_lt_one_div_of_lt (Real.exp_pos _)
      (Real.exp_lt_exp.mpr (mul_lt_mul_of_pos_left ht hrpos))

/-- Witness for C3 at knots (1, 2), discounts (1/2, 1/4), query 3. -/
theorem flat_forward_extrapolation_witness :
    ValidKnots [1, 2] [1/2, 1/4] ∧ listMax [1, 2] < 3 ∧
      (Curve.zero_rate (.discount [1, 2] [1/2, 1/4] .raw) 3 .continuous
          = Curve.zero_rate (.discount [1, 2] [1/2, 1/4] .raw) (listMax [1, 2]) .continuous
        ∧ (([1/2, 1/4] : List ℝ).getD (([1/2, 1/4] : List ℝ).length - 1) 0 < 1 →
            Curve.discount_factor (.discount [1, 2] [1/2, 1/4] .raw) 3
              < Curve.discount_factor (.discount [1, 2] [1/2, 1/4] .raw) (listMax [1, 2]))) := by
  have hv : ValidKnots [1, 2] [1/2, 1/4] := by
    refine ⟨by norm_num, by norm_num, ?_, ?_, ?_⟩
    · norm_num [List.chain'_cons]
    · intro x hx
      rcases List.mem_cons.mp hx with rfl | hx'
      · norm_num
      · rw [List.mem_singleton] at hx'
        rw [hx']
        norm_num
    · intro d hd
      rcases List.mem_cons.mp hd with rfl | hd'
      · norm_num
      · rw [List.mem_singleton] at hd'
        rw [hd']
        norm_num
  have hmaxval : listMax ([1, 2] : List ℝ) = 2 := by
    simp only [listMax, List.foldl_cons, List.foldl_nil]
    exact max_eq_right (by norm_num)
  have hmax : listMax ([1, 2] : List ℝ) < 3 := by
    rw [hmaxval]
    norm_num
  exact ⟨hv, hmax, flat_forward_extrapolation .raw [1, 2] [1/2, 1/4] hv 3 hmax⟩

/-- Counterexample for C3 as stated: with the valid knot set (1, 2) carrying
discount factors (1, 1), the extrapolated discount factor at t = 3 equals the
discount factor at the last knot (both are 1), so the claimed strict
inequality discount_factor(t) < discount_factor(max knots) fails. -/
theorem flat_forward_extrapolation_cex :
    ValidKnots [1, 2] [1, 1] ∧ listMax [1, 2] < 3 ∧
      ¬ (Curve.discount_factor (.discount [1, 2] [1, 1] .raw) 3
          < Curve.discount_factor (.discount [1, 2] [1, 1] .raw) (listMax [1, 2])) := by
  have hv : ValidKnots [1, 2] [1, 1] := by
    refine ⟨by norm_num, by norm_num, ?_, ?_, ?_⟩
    · norm_num [List.chain'_cons]
    · intro x hx
      rcases List.mem_cons.mp hx with rfl | hx'
      · norm_num
      · rw [List.mem_singleton] at hx'
        rw [hx']
        norm_num
    · intro d hd
      rcases List.mem_cons.mp hd with rfl | hd'
      · norm_num
      · rw [List.mem_singleton] at hd'
        rw [hd']
        norm_num
  have hmaxval : listMax ([1, 2] : List ℝ) = 2 := by
    simp only [listMax, List.foldl_cons, List.foldl_nil]
    exact max_eq_right (by norm_num)
  have hrate : rates.implied_rate (listMax [1, 2])
      (([1, 1] : List ℝ).getD (([1, 1] : List ℝ).length - 1) 0) .continuous = 0 := by
    rw [hmaxval]
    norm_num [rates.implied_rate, List.getD, Real.log_one]
  have h3 : Curve.discount_factor (.discount [1, 2] [1, 1] .raw) 3 = 1 := by
    have hc := make_call_of_ge_max .linear .logarithmic [1, 2] [1, 1]
      hv.sorted hv.len_eq hv.two_le hv.mat_pos hv.df_pos 3 (by rw [hmaxval]; norm_num)
    show (CurveInterpolatorFactory.get [1, 2] [1, 1] .raw).call 3 = 1
    rw [show CurveInterpolatorFactory.get [1, 2] [1, 1] .raw
        = InterestRateCurveInterpolator.make [1, 2] [1, 1] .linear .logarithmic from rfl,
      hc, hrate]
    norm_num [rates.discount_factor, rates.capitalization, Real.exp_zero]
  have hT : Curve.discount_factor (.discount [1, 2] [1, 1] .raw) (listMax [1, 2]) = 1 := by
    have hc := make_call_of_ge_max .linear .logarithmic [1, 2] [1, 1]
      hv.sorted hv.len_eq hv.two_le hv.mat_pos hv.df_pos (listMax [1, 2]) le_rfl
    show (CurveInterpolatorFactory.get [1, 2] [1, 1] .raw).call (listMax [1, 2]) = 1
    rw [show CurveInterpolatorFactory.get [1, 2] [1, 1] .raw
        = InterestRateCurveInterpolator.make [1, 2] [1, 1] .linear .logarithmic from rfl,
      hc, hrate]
    norm_num [rates.discount_factor, rates.capitalization, Real.exp_zero]
  refine ⟨hv, by rw [hmaxval]; norm_num, ?_⟩
  rw [h3, hT]
  exact lt_irrefl 1

/-- DiscountCurve.__init__'s validation stage: the two assert statements
(equal lengths, more than one knot) run before the curve interpolator factory
is invoked.  A failing assert is modelled as none; otherwise the constructed
curve is returned. -/
noncomputable def DiscountCurve.init (maturity discount : List ℝ)
    (interp : CurveInterpolationType) : Option Curve :=
  if maturity.length = discount.length ∧ 1 < maturity.length then
    some (.discount maturity discount interp)
  else none

/-- C4 (amended): constructing an interpolated discount curve raises a
validation error exactly when the knot count is below 2 or the lengths
mismatch, and those checks run before any fitting; in particular
maturities = (1.0) alone is rejected.  Maturities that are not strictly
increasing are NOT validated: construction succeeds on them. -/
theorem discount_curve_validation (maturity discount : List ℝ)
    (interp : CurveInterpolationType) :
    DiscountCurve.init maturity discount interp = none
      ↔ (maturity.length ≠ discount.length ∨ maturity.length ≤ 1) := by
  by_cases hcond : maturity.length = discount.length ∧ 1 < maturity.length
  · rw [DiscountCurve.init, if_pos hcond]
    simp only [reduceCtorEq, false_iff]
    push_neg
    exact ⟨hcond.1, hcond.2⟩
  · rw [DiscountCurve.init, if_neg hcond]
    simp only [true_iff]
    rcases not_and_or.mp hcond with hc1 | hc2
    · exact Or.inl hc1
    · exact Or.inr (by omega)

/-- Counterexample for C4 as stated: the non-increasing maturity list (2, 1)
passes construction-time validation (no error is raised), refuting the claim
that non-monotonic maturities fail with a validation error. A single knot
(1.0), by contrast, is rejected as the claim says. -/
theorem discount_curve_validation_cex :
    (DiscountCurve.init [2, 1] [9/10, 19/20] .raw).isSome = true ∧
      DiscountCurve.init [1] [9/10] .raw = none := by
  constructor
  · rw [DiscountCurve.init, if_pos (by norm_num)]
    rfl
  · rw [DiscountCurve.init, if_neg (by norm_num)]

/-- SplineInterpolator.index from mylib.math.interp, scalar form of the
vectorized loop body: clamp the query to the last grid value, take the
position of the first grid value ≥ the clamped query, subtract one and floor
the result at zero.  (On the empty grid, on which the source raises, the
clamp defaults to the query itself.) -/
def SplineInterpolator.index {α : Type*} [LinearOrder α] (xs : List α) (q : α) : ℕ :=
  (((xs.findIdx fun w => decide (min q (xs.getLastD q) ≤ w)) : ℤ) - 1).toNat

/-- The claim's first characterization, taken literally: the greatest grid
index whose value is ≤ the query (0 when no index qualifies). -/
def greatestIdxLe {α : Type*} [LinearOrder α] (xs : List α) (q : α) : ℕ :=
  ((List.range xs.length).filter fun i => decide (xs.getD i q ≤ q)).foldr max 0

/-- The corrected characterization: the greatest grid index whose value is
STRICTLY below the query (0 when no index qualifies). -/
def greatestIdxLt {α : Type*} [LinearOrder α] (xs : List α) (q : α) : ℕ :=
  ((List.range xs.length).filter fun i => decide (xs.getD i q < q)).foldr max 0

lemma sorted_getElem_le {α : Type*} [LinearOrder α] {l : List α}
    (hs : l.Chain' (· < ·)) {i j : ℕ} (hij : i ≤ j) (hj : j < l.length) :
    l.get ⟨i, lt_of_le_of_lt hij hj⟩ ≤ l.get ⟨j, hj⟩ := by
  rcases lt_or_eq_of_le hij with hlt | heq
  · have hp := List.chain'_iff_pairwise.mp hs
    exact le_of_lt (List.pairwise_iff_get.mp hp ⟨i, lt_of_le_of_lt hij hj⟩ ⟨j, hj⟩ hlt)
  · subst heq
    exact le_refl _

lemma filter_range_lt (k n : ℕ) (hk : k ≤ n) :
    (List.range n).filter (fun i => decide (i < k)) = List.range k := by
  induction n with
  | zero =>
    have hk0 : k = 0 := by omega
    simp [hk0]
  | succ n ih =>
    rcases Nat.lt_or_ge n k with hnk | hkn
    · have hk1 : k = n + 1 := by omega
      subst hk1
      apply List.filter_eq_self.mpr
      intro a ha
      rw [List.mem_range] at ha
      simpa using ha
    · rw [List.range_succ, List.filter_append]
      have hdrop : (List.filter (fun i => decide (i < k)) [n]) = [] := by
        simp [Nat.not_lt.mpr hkn]
      rw [hdrop, List.append_nil]
      exact ih hkn

lemma foldr_max_init (l : List ℕ) : ∀ a : ℕ, l.foldr max a = max a (l.foldr max 0) := by
  induction l with
  | nil =>
    intro a
    simp
  | cons b l ih =>
    intro a
    rw [List.foldr_cons, ih a, List.foldr_cons, max_left_comm]

lemma foldr_max_range (k : ℕ) : (List.range k).foldr max 0 = k - 1 := by
  induction k with
  | zero => simp
  | succ k ih =>
    rw [List.range_succ, List.foldr_append]
    simp only [List.foldr_cons, List.foldr_nil]
    rw [foldr_max_init, ih]
    omega

/-- C7 (amended): SplineInterpolator.index returns the greatest knot index
whose maturity is STRICTLY below the clamped query (floored at 0, queries
above the last knot clamped into the last segment); equivalently, the index
of the first knot ≥ the clamped query minus one, floored at 0.  A query equal
to an interior knot therefore selects the segment ending at that knot, not
the one starting there. -/
lemma findIdx_filter_lt {α : Type*} [LinearOrder α] (xs : List α)
    (hs : xs.Chain' (· < ·)) (v : α) :
    (List.range xs.length).filter (fun i => decide (xs.getD i v < v))
      = List.range (xs.findIdx fun w => decide (v ≤ w)) := by
  have hklen : (xs.findIdx fun w => decide (v ≤ w)) ≤ xs.length :=
    List.findIdx_le_length _
  rw [← filter_range_lt _ xs.length hklen]
  apply List.filter_congr
  intro i hi
  rw [List.mem_range] at hi
  rw [decide_eq_decide, List.getD_eq_getElem _ _ hi]
  constructor
  · intro hlt
    by_contra hge
    push_neg at hge
    have hkn : (xs.findIdx fun w => decide (v ≤ w)) < xs.length := lt_of_le_of_lt hge hi
    have hpk := List.findIdx_getElem (w := hkn)
    simp only [decide_eq_true_eq] at hpk
    exact absurd (le_trans hpk (sorted_getElem_le hs hge hi)) (not_le.mpr hlt)
  · intro hik
    have hnp := List.not_of_lt_findIdx hik
    simp only [decide_eq_false_iff_not] at hnp
    exact not_le.mp hnp

/-- C7 (amended): SplineInterpolator.index returns the greatest knot index
whose maturity is STRICTLY below the clamped query (floored at 0, queries
above the last knot clamped into the last segment); equivalently, the index
of the first knot ≥ the clamped query minus one, floored at 0.  A query equal
to an interior knot therefore selects the segment ending at that knot, not
the one starting there. -/
theorem spline_index_characterization {α : Type*} [LinearOrder α]
    (xs : List α) (hs : xs.Chain' (· < ·)) (hne : xs ≠ []) (q : α) :
    SplineInterpolator.index xs q = greatestIdxLt xs (min q (xs.getLastD q)) := by
  rw [SplineInterpolator.index, greatestIdxLt, findIdx_filter_lt xs hs _, foldr_max_range]
  omega

/-- Witness for C7's amended characterization on the rational grid
(0, 1, 2, 3) at query 5/2. -/
theorem spline_index_characterization_witness :
    (([0, 1, 2, 3] : List ℚ).Chain' (· < ·)) ∧ (([0, 1, 2, 3] : List ℚ) ≠ []) ∧
      SplineInterpolator.index ([0, 1, 2, 3] : List ℚ) (5/2)
        = greatestIdxLt ([0, 1, 2, 3] : List ℚ)
            (min (5/2) (([0, 1, 2, 3] : List ℚ).getLastD (5/2))) :=
  ⟨by norm_num [List.chain'_cons], by simp,
    spline_index_characterization _ (by norm_num [List.chain'_cons]) (by simp) _⟩

/-- Counterexample for C7 as stated: on the grid (0, 1, 2, 3) at the interior
knot query q = 2, the source's index is 1 (the segment ending at the knot),
while the greatest knot index with maturity ≤ q is 2; the two characterizations
in the claim disagree at exact knots and the code implements the strict one. -/
theorem spline_index_cex :
    SplineInterpolator.index ([0, 1, 2, 3] : List ℚ) 2 = 1 ∧
      greatestIdxLe ([0, 1, 2, 3] : List ℚ) 2 = 2 ∧
      SplineInterpolator.index ([0, 1, 2, 3] : List ℚ) 2
        ≠ greatestIdxLe ([0, 1, 2, 3] : List ℚ) 2 := by
  refine ⟨?_, ?_, ?_⟩ <;> decide

/-- IEEE-754 double value classes for modelling numpy arithmetic at singular
points: a finite value (held as the exact real it denotes), the two
infinities, and NaN. -/
inductive FVal
  | fin (x : ℝ)
  | inf
  | ninf
  | nan

/-- Finiteness of an IEEE value class. -/
def FVal.isFinite : FVal → Bool
  | .fin _ => true
  | _ => false

/-- IEEE-754 division of two finite doubles (values taken as exact reals):
division by zero yields NaN for a zero numerator and a signed infinity
otherwise; numpy emits a RuntimeWarning but returns exactly these values. -/
noncomputable def fdiv (a b : ℝ) : FVal :=
  if b = 0 then (if a = 0 then .nan else if 0 < a then .inf else .ninf)
  else .fin (a / b)

/-- IEEE negation. -/
def FVal.neg : FVal → FVal
  | .fin a => .fin (-a)
  | .inf => .ninf
  | .ninf => .inf
  | .nan => .nan

/-- Division of an IEEE value class by a finite double (zero treated as
IEEE +0). -/
noncomputable def FVal.divR : FVal → ℝ → FVal
  | .fin a, b => fdiv a b
  | .inf, b => if 0 ≤ b then .inf else .ninf
  | .ninf, b => if 0 ≤ b then .ninf else .inf
  | .nan, _ => .nan

/-- Subtraction of a finite double from an IEEE value class. -/
def FVal.subR : FVal → ℝ → FVal
  | .fin a, r => .fin (a - r)
  | .inf, _ => .inf
  | .ninf, _ => .ninf
  | .nan, _ => .nan

/-- Multiplication of an IEEE value class by a finite double. -/
noncomputable def FVal.mulR : FVal → ℝ → FVal
  | .fin a, r => .fin (a * r)
  | .inf, r => if r = 0 then .nan else if 0 < r then .inf else .ninf
  | .ninf, r => if r = 0 then .nan else if 0 < r then .ninf else .inf
  | .nan, _ => .nan

/-- IEEE np.log of a finite double: -inf at 0, NaN below 0. -/
noncomputable def flogF (x : ℝ) : FVal :=
  if 0 < x then .fin (Real.log x) else if x = 0 then .ninf else .nan

/-- IEEE reciprocal of a finite double: +inf at (positive) zero. -/
noncomputable def finv (x : ℝ) : FVal :=
  if x = 0 then .inf else .fin (1.0 / x)

/-- IEEE pow with a finite base x and an IEEE exponent class: pow(1, e) = 1
for every e including NaN and the infinities; otherwise an infinite exponent
collapses to 0 or +inf by the size of the base, and a NaN exponent
propagates. -/
noncomputable def fpowB (x : ℝ) : FVal → FVal
  | .fin y => .fin (x ^ y)
  | .inf => if x = 1 then .fin 1 else if 1 < x then .inf else .fin 0
  | .ninf => if x = 1 then .fin 1 else if 1 < x then .fin 0 else .inf
  | .nan => if x = 1 then .fin 1 else .nan

/-- mylib.interest.rates.implied_rate evaluated with IEEE-754 semantics at a
finite time t and finite discount factor df (both held as exact reals): the
same three formulas as implied_rate, with the literal division, logarithm and
power steps carried out under IEEE rules so that the t = 0 behaviour of the
unguarded division is captured. -/
noncomputable def impliedRateF (t df : ℝ) : Compound → FVal
  | .continuous => ((flogF df).neg).divR t
  | .simple => ((finv df).subR 1).divR t
  | c => ((fpowB df (fdiv (-1.0) (t * c.m))).subR 1).mulR c.m

/-- InterestRateCurve.zero_rate under IEEE semantics: the discount factor is
produced by the curve (finite and exactly representable on the claim's path,
where the query time 0 makes every variant return exactly 1.0), then fed to
the unguarded implied_rate. -/
noncomputable def Curve.zero_rateF (c : Curve) (t : ℝ) (comp : Compound) : FVal :=
  impliedRateF t (c.discount_factor t) comp

/-- Validity of a curve for the zero-rate claim: flat curves are always
valid; interpolated curves need a valid knot set (with the first knot above
0, so that t = 0 lies strictly below it). -/
def Curve.Valid : Curve → Prop
  | .flat _ _ => True
  | .discount ts dfs _ => ValidKnots ts dfs

/-- Every curve variant returns a discount factor of exactly 1 at t = 0. -/
lemma discount_factor_at_zero (c : Curve) : c.discount_factor 0 = 1 := by
  cases c with
  | flat r comp =>
    show rates.discount_factor 0 r comp = 1
    cases comp <;>
      norm_num [rates.discount_factor, rates.capitalization, Real.exp_zero, Real.rpow_zero]
  | discount ts dfs p =>
    show (CurveInterpolatorFactory.get ts dfs p).call 0 = 1
    have hcall : ∀ it ct, (InterestRateCurveInterpolator.make ts dfs it ct).call 0 = 1 := by
      intro it ct
      simp only [InterestRateCurveInterpolator.call]
      norm_num [rates.discount_factor, rates.capitalization, Real.exp_zero]
    cases p <;> exact hcall _ _

/-- C9: implied_rate divides by the time argument with no guard, so querying
zero_rate(0) (at its default continuous compounding) on any curve variant
evaluates, under IEEE semantics, to 0/0 = NaN - a non-finite value - rather
than raising a validation error; t > 0 is an unstated precondition. -/
theorem zero_rate_at_zero_is_nan (c : Curve) (h : c.Valid) :
    c.zero_rateF 0 .continuous = .nan ∧ (c.zero_rateF 0 .continuous).isFinite = false := by
  have hdf : c.discount_factor 0 = 1 := discount_factor_at_zero c
  have hval : c.zero_rateF 0 .continuous = .nan := by
    rw [Curve.zero_rateF, hdf]
    simp [impliedRateF, flogF, FVal.neg, FVal.divR, fdiv, Real.log_one]
  exact ⟨hval, by rw [hval]; rfl⟩

/-- Witness for C9 on a flat 5% continuous curve. -/
theorem zero_rate_at_zero_is_nan_witness :
    Curve.Valid (.flat (1/20) .continuous) ∧
      (Curve.zero_rateF (.flat (1/20) .continuous) 0 .continuous = .nan ∧
        (Curve.zero_rateF (.flat (1/20) .continuous) 0 .continuous).isFinite = false) :=
  ⟨trivial, zero_rate_at_zero_is_nan (.flat (1/20) .continuous) trivial⟩

/-- Periodic-compounding flat-curve rate recovery, for a positive period
count m and a positive compounding base 1 + r/m. -/
lemma periodic_flat_recovery (t r m : ℝ) (ht : t ≠ 0) (hm : 0 < m)
    (hb : 0 < 1 + r / m) :
    ((1.0 / ((1.0 + r / m) ^ (t * m))) ^ (-1.0 / (t * m)) - 1) * m = r := by
  have htm : t * m ≠ 0 := mul_ne_zero ht (ne_of_gt hm)
  have hb' : (0 : ℝ) ≤ 1 + r / m := le_of_lt hb
  rw [show (1.0 : ℝ) = 1 from by norm_num]
  rw [one_div, Real.inv_rpow (Real.rpow_nonneg hb' _), ← Real.rpow_mul hb']
  rw [show (t * m) * (-1 / (t * m)) = -1 from by field_simp]
  rw [Real.rpow_neg_one, inv_inv]
  rw [show (1 + r / m - 1) = r / m from by ring, div_mul_cancel₀ r (ne_of_gt hm)]

/-- C10 (amended): a flat curve recovers its constructed rate under its own
convention for every t > 0 with a positive discount factor, provided that for
the periodic conventions the compounding base 1 + r/m is positive.  (With a
negative base the float power rounds through the positive branch and the
recovered rate differs, as the counterexample shows.) -/
theorem flat_curve_recovers_rate (r t : ℝ) (c : Compound) (ht : 0 < t)
    (hdf : 0 < (Curve.flat r c).discount_factor t)
    (hc : c = .continuous ∨ c = .simple ∨ 0 < 1 + r / c.m) :
    Curve.zero_rate (.flat r c) t c = r := by
  have ht' : t ≠ 0 := ne_of_gt ht
  cases c
  · exact implied_cont_of_df t r ht'
  · show rates.implied_rate t (rates.discount_factor t r .simple) .simple = r
    simp only [rates.implied_rate, rates.discount_factor, rates.capitalization,
      show (1.0 : ℝ) = 1 from by norm_num]
    rw [one_div_one_div]
    rw [show (1 + r * t - 1) = r * t from by ring, mul_div_cancel_right₀ r ht']
  all_goals {
    rcases hc with hc1 | hc2 | hb
    · exact absurd hc1 (by decide)
    · exact absurd hc2 (by decide)
    · exact periodic_flat_recovery t r _ ht' (by norm_num [Compound.m]) hb
  }

/-- Witness for C10 on a flat 5% continuous curve at t = 1. -/
theorem flat_curve_recovers_rate_witness :
    (0 : ℝ) < 1 ∧ 0 < (Curve.flat (1/20) .continuous).discount_factor 1 ∧
      Curve.zero_rate (.flat (1/20) .continuous) 1 .continuous = 1/20 := by
  have hdfpos : 0 < (Curve.flat (1/20) .continuous).discount_factor 1 := by
    show 0 < 1.0 / Real.exp ((1/20 : ℝ) * 1)
    positivity
  exact ⟨by norm_num, hdfpos,
    flat_curve_recovers_rate (1/20) 1 .continuous (by norm_num) hdfpos (Or.inl rfl)⟩

/-- Counterexample for C10 as stated: the flat curve with rate -3 under
annual compounding has capitalization (1 - 3)^2 = 4, hence
discount_factor(2) = 1/4 > 0, yet zero_rate(2, annual) evaluates to 1 - not
the constructed rate -3 - because the inversion takes the positive root. -/
theorem flat_curve_recovers_rate_cex :
    (0 : ℝ) < 2 ∧ 0 < (Curve.flat (-3) .annual).discount_factor 2 ∧
      Curve.zero_rate (.flat (-3) .annual) 2 .annual ≠ -3 := by
  have hdf : (Curve.flat (-3) .annual).discount_factor 2 = 1/4 := by
    show 1.0 / ((1.0 + (-3 : ℝ) / Compound.m .annual) ^ ((2 : ℝ) * Compound.m .annual)) = 1/4
    rw [show Compound.m Compound.annual = (1 : ℝ) from rfl]
    rw [show (1.0 + (-3 : ℝ) / 1) = -2 from by norm_num,
      show ((2 : ℝ) * 1) = ((2 : ℕ) : ℝ) from by norm_num, Real.rpow_natCast]
    norm_num
  have hzr : Curve.zero_rate (.flat (-3) .annual) 2 .annual = 1 := by
    show (((Curve.flat (-3) .annual).discount_factor 2)
        ^ (-1.0 / ((2 : ℝ) * Compound.m .annual)) - 1) * Compound.m .annual = 1
    rw [hdf, show Compound.m Compound.annual = (1 : ℝ) from rfl]
    rw [show (-1.0 / ((2 : ℝ) * 1)) = -(((2 : ℕ) : ℝ))⁻¹ from by norm_num]
    rw [Real.rpow_neg (by norm_num : (0 : ℝ) ≤ 1/4)]
    rw [show ((1/4 : ℝ)) = (1/2 : ℝ) ^ (2 : ℕ) from by norm_num]
    rw [Real.pow_rpow_inv_natCast (by norm_num) (by norm_num)]
    norm_num
  refine ⟨by norm_num, by rw [hdf]; norm_num, ?_⟩
  rw [hzr]
  norm_num
